import Mathlib

/-!
Verification development for the Safe-Miles school-bus optimization core
(`backend/models/routing.py`, `backend/models/clustering.py`, and the wiring
in `backend/models/optimizer.py`).

The Python code is shallowly embedded: dataframe rows become Lean structures,
numpy/pandas pipelines become list functions, exact rational/real arithmetic
stands for Python floats, and the two external solvers (OR-Tools routing and
sklearn KMeans) are modelled as explicit oracles, since only their documented
input/output contracts are observable from this repository.
-/

namespace SafeMiles

/-- Python `math.ceil(a / b)` on non-negative integers (exact ceiling; the
source computes it via float division, modelled exactly). -/
def ceilDivNat (a b : ℕ) : ℕ := (a + b - 1) / b

/-- Python `int()` applied to a (modelled-as-rational) float: truncation
toward zero. -/
def truncQ (q : ℚ) : ℤ := if q < 0 then ⌈q⌉ else ⌊q⌋

/-- A row of `stop_df` as consumed by `split_large_stops` in
`backend/models/routing.py`. Only the columns the function reads or writes
are modelled (`stop_id`, coordinates, `num_students`, `student_ids`); the
coordinates are only copied, never computed with, so they are carried as
rationals. -/
structure BusStop where
  stop_id : String
  latitude : ℚ
  longitude : ℚ
  num_students : ℕ
  student_ids : List ℕ
deriving DecidableEq

/-- The body of the `else` branch (and trivial `then` branch) of the row loop
of `split_large_stops` (`routing.py`): a stop whose demand exceeds
`bus_capacity` becomes `ceil(demand / capacity)` sibling rows; each sibling
copies the row (including `student_ids`) and overwrites `stop_id` and
`num_students`. -/
def expandStop (bus_capacity : ℕ) (row : BusStop) : List BusStop :=
  if row.num_students ≤ bus_capacity then [row]
  else
    let num_sub_stops := ceilDivNat row.num_students bus_capacity
    let students_per_sub_stop := ceilDivNat row.num_students num_sub_stops
    (List.range num_sub_stops).map fun i =>
      { row with
        stop_id := row.stop_id ++ "_part" ++ toString (i + 1)
        num_students :=
          if i = num_sub_stops - 1 then
            row.num_students - students_per_sub_stop * (num_sub_stops - 1)
          else students_per_sub_stop }

/-- `split_large_stops` from `backend/models/routing.py`: the row loop
appending either the row itself or its expansion. -/
def split_large_stops (stop_df : List BusStop) (bus_capacity : ℕ) : List BusStop :=
  stop_df.flatMap (expandStop bus_capacity)

theorem ceilDivNat_le_iff {a b c : ℕ} (hb : 0 < b) : ceilDivNat a b ≤ c ↔ a ≤ c * b := by
  unfold ceilDivNat
  rw [← Nat.lt_succ_iff, Nat.div_lt_iff_lt_mul hb, Nat.succ_mul]
  generalize c * b = X
  omega

theorem le_ceilDivNat_mul {a b : ℕ} (hb : 0 < b) : a ≤ ceilDivNat a b * b :=
  (ceilDivNat_le_iff hb).1 le_rfl

theorem one_le_ceilDivNat {a b : ℕ} (hb : 0 < b) (ha : 0 < a) : 1 ≤ ceilDivNat a b := by
  by_contra h
  push_neg at h
  have h0 : ceilDivNat a b ≤ 0 := by omega
  have := (ceilDivNat_le_iff hb).1 h0
  omega

theorem mul_pred_lt_of_ceilDivNat {a b : ℕ} (hb : 0 < b) (ha : 0 < a) :
    (ceilDivNat a b - 1) * b < a := by
  by_contra h
  push_neg at h
  have h1 : ceilDivNat a b ≤ ceilDivNat a b - 1 := (ceilDivNat_le_iff hb).2 h
  have h2 := one_le_ceilDivNat hb ha
  omega

/-- The demand list produced by the sibling loop, in closed form. -/
theorem range_map_ite {n : ℕ} (hn : 0 < n) (per last : ℕ) :
    (List.range n).map (fun i => if i = n - 1 then last else per) =
      List.replicate (n - 1) per ++ [last] := by
  obtain ⟨m, rfl⟩ : ∃ m, n = m + 1 := ⟨n - 1, by omega⟩
  rw [List.range_succ, List.map_append]
  congr 1
  · refine List.eq_replicate_iff.2 ⟨by simp, ?_⟩
    intro b hb
    obtain ⟨i, hi, rfl⟩ := List.mem_map.1 hb
    have him : i < m := List.mem_range.1 hi
    have hne : i ≠ m := by omega
    simp [hne]
  · simp

/-- The guarantees `split_large_stops` gives a stop list: no output demand
exceeds the capacity, and every over-capacity input stop expands into
`ceil(demand / capacity)` co-located siblings whose demands are
`ceil(demand / num_siblings)` each except the last, which takes the
remainder, summing back to the original demand. -/
def SplitSpec (stop_df : List BusStop) (bus_capacity : ℕ) : Prop :=
  (∀ t ∈ split_large_stops stop_df bus_capacity, t.num_students ≤ bus_capacity) ∧
  ∀ s ∈ stop_df, bus_capacity < s.num_students →
    (expandStop bus_capacity s).length = ceilDivNat s.num_students bus_capacity ∧
    (∀ t ∈ expandStop bus_capacity s, t.latitude = s.latitude ∧ t.longitude = s.longitude) ∧
    (expandStop bus_capacity s).map (fun t => t.num_students) =
      List.replicate (ceilDivNat s.num_students bus_capacity - 1)
          (ceilDivNat s.num_students (ceilDivNat s.num_students bus_capacity)) ++
        [s.num_students -
          ceilDivNat s.num_students (ceilDivNat s.num_students bus_capacity) *
            (ceilDivNat s.num_students bus_capacity - 1)] ∧
    ((expandStop bus_capacity s).map (fun t => t.num_students)).sum = s.num_students

theorem expandStop_num_eq {bus_capacity : ℕ} {s : BusStop} (hcap : 1 ≤ bus_capacity)
    (hd : bus_capacity < s.num_students) :
    (expandStop bus_capacity s).map (fun t => t.num_students) =
      List.replicate (ceilDivNat s.num_students bus_capacity - 1)
          (ceilDivNat s.num_students (ceilDivNat s.num_students bus_capacity)) ++
        [s.num_students -
          ceilDivNat s.num_students (ceilDivNat s.num_students bus_capacity) *
            (ceilDivNat s.num_students bus_capacity - 1)] := by
  have hnle : ¬ s.num_students ≤ bus_capacity := not_le.2 hd
  have hn : 0 < ceilDivNat s.num_students bus_capacity :=
    one_le_ceilDivNat hcap (by omega)
  rw [expandStop, if_neg hnle, List.map_map]
  have : ((fun t : BusStop => t.num_students) ∘ fun i =>
      ({ s with
        stop_id := s.stop_id ++ "_part" ++ toString (i + 1)
        num_students :=
          if i = ceilDivNat s.num_students bus_capacity - 1 then
            s.num_students -
              ceilDivNat s.num_students (ceilDivNat s.num_students bus_capacity) *
                (ceilDivNat s.num_students bus_capacity - 1)
          else ceilDivNat s.num_students (ceilDivNat s.num_students bus_capacity) } : BusStop)) =
      fun i =>
        if i = ceilDivNat s.num_students bus_capacity - 1 then
          s.num_students -
            ceilDivNat s.num_students (ceilDivNat s.num_students bus_capacity) *
              (ceilDivNat s.num_students bus_capacity - 1)
        else ceilDivNat s.num_students (ceilDivNat s.num_students bus_capacity) := by
    funext i
    by_cases h : i = ceilDivNat s.num_students bus_capacity - 1 <;> simp [h]
  rw [this, range_map_ite hn]

/-- The capacity normalizer meets its specification (claim about
`split_large_stops` for positive capacity, the only configuration the spec
allows). -/
theorem split_large_stops_spec (stop_df : List BusStop) (bus_capacity : ℕ)
    (hcap : 1 ≤ bus_capacity) : SplitSpec stop_df bus_capacity := by
  have key : ∀ s : BusStop, bus_capacity < s.num_students →
      ceilDivNat s.num_students (ceilDivNat s.num_students bus_capacity) ≤ bus_capacity ∧
      s.num_students -
          ceilDivNat s.num_students (ceilDivNat s.num_students bus_capacity) *
            (ceilDivNat s.num_students bus_capacity - 1) ≤
        ceilDivNat s.num_students (ceilDivNat s.num_students bus_capacity) ∧
      ceilDivNat s.num_students (ceilDivNat s.num_students bus_capacity) *
          (ceilDivNat s.num_students bus_capacity - 1) < s.num_students := by
    intro s hd
    set d := s.num_students with hdd
    set n := ceilDivNat d bus_capacity with hnn
    have hb : 0 < bus_capacity := hcap
    have hdp : 0 < d := by omega
    have hn1 : 1 ≤ n := one_le_ceilDivNat hb hdp
    set per := ceilDivNat d n with hper
    have f1 : d ≤ n * bus_capacity := by
      rw [hnn]
      exact le_ceilDivNat_mul hb
    have f2 : d ≤ per * n := le_ceilDivNat_mul (a := d) hn1
    have f3 : (n - 1) * bus_capacity < d := mul_pred_lt_of_ceilDivNat hb hdp
    have f4 : per ≤ bus_capacity := by
      rw [hper, ceilDivNat_le_iff hn1]
      calc d ≤ n * bus_capacity := f1
        _ = bus_capacity * n := Nat.mul_comm _ _
    have f5 : per * (n - 1) < d := by
      calc per * (n - 1) ≤ bus_capacity * (n - 1) := Nat.mul_le_mul_right _ f4
        _ = (n - 1) * bus_capacity := Nat.mul_comm _ _
        _ < d := f3
    refine ⟨f4, ?_, f5⟩
    have hpn : per * n = per * (n - 1) + per := by
      have : n - 1 + 1 = n := by omega
      calc per * n = per * (n - 1 + 1) := by rw [this]
        _ = per * (n - 1) + per := by ring
    omega
  constructor
  · intro t ht
    obtain ⟨s, hs, hts⟩ := List.mem_flatMap.1 ht
    by_cases hle : s.num_students ≤ bus_capacity
    · rw [expandStop, if_pos hle] at hts
      simp only [List.mem_singleton] at hts
      subst hts
      exact hle
    · have hd : bus_capacity < s.num_students := not_le.1 hle
      obtain ⟨f4, f6, _⟩ := key s hd
      have hnum : t.num_students ∈ (expandStop bus_capacity s).map (fun t => t.num_students) :=
        List.mem_map_of_mem _ hts
      rw [expandStop_num_eq hcap hd] at hnum
      rcases List.mem_append.1 hnum with hrep | hlast
      · have := List.eq_of_mem_replicate hrep
        omega
      · simp only [List.mem_singleton] at hlast
        omega
  · intro s hs hd
    obtain ⟨f4, f6, f5⟩ := key s hd
    have hnle : ¬ s.num_students ≤ bus_capacity := not_le.2 hd
    refine ⟨?_, ?_, expandStop_num_eq hcap hd, ?_⟩
    · rw [expandStop, if_neg hnle]
      simp
    · intro t ht
      rw [expandStop, if_neg hnle] at ht
      obtain ⟨i, hi, rfl⟩ := List.mem_map.1 ht
      exact ⟨rfl, rfl⟩
    · rw [expandStop_num_eq hcap hd]
      have hn1 : 1 ≤ ceilDivNat s.num_students bus_capacity :=
        one_le_ceilDivNat hcap (by omega)
      rw [List.sum_append, List.sum_replicate, List.sum_singleton, smul_eq_mul]
      have hcomm : (ceilDivNat s.num_students bus_capacity - 1) *
          ceilDivNat s.num_students (ceilDivNat s.num_students bus_capacity) =
          ceilDivNat s.num_students (ceilDivNat s.num_students bus_capacity) *
            (ceilDivNat s.num_students bus_capacity - 1) := Nat.mul_comm _ _
      omega

/-- Concrete stop of the normalizer scenario: demand 100, all other fields
inert. -/
def stopDemand100 : BusStop :=
  { stop_id := "0", latitude := 0, longitude := 0, num_students := 100
    student_ids := List.range 100 }

/-- C4 counterexample: with demand 100 and capacity 40 the code produces
sibling demands 34, 34, 32 — not the 40, 40, 20 the claim states. -/
theorem split_100_by_40_gives_34_34_32 :
    (split_large_stops [stopDemand100] 40).map (fun t => t.num_students) = [34, 34, 32] ∧
      ([34, 34, 32] : List ℕ) ≠ [40, 40, 20] := by
  constructor
  · rfl
  · decide

/-- C4 amended: demand 100 at capacity 40 yields exactly 3 sibling stops,
with demands 34, 34 and 32 (members distributed evenly, the last sibling
taking the remainder). -/
theorem split_100_by_40_three_siblings :
    (split_large_stops [stopDemand100] 40).length = 3 ∧
      (split_large_stops [stopDemand100] 40).map (fun t => t.num_students) = [34, 34, 32] := by
  exact ⟨rfl, rfl⟩

/-- Concrete stop with three named students and demand 3. -/
def stopThreeStudents : BusStop :=
  { stop_id := "7", latitude := 0, longitude := 0, num_students := 3
    student_ids := [1, 2, 3] }

/-- C5 failing input: splitting a stop of 3 students at capacity 2 yields two
siblings whose `num_students` are 2 and 1, but both siblings keep the full
`student_ids` list, so student 1 is listed at 2 stops instead of exactly 1. -/
theorem split_duplicates_student_membership :
    (split_large_stops [stopThreeStudents] 2).map (fun t => t.num_students) = [2, 1] ∧
      (split_large_stops [stopThreeStudents] 2).map (fun t => t.student_ids) =
        [[1, 2, 3], [1, 2, 3]] ∧
      ((split_large_stops [stopThreeStudents] 2).filter
          (fun t => 1 ∈ t.student_ids)).length = 2 := by
  exact ⟨rfl, rfl, rfl⟩

/-- Witness input for the normalizer specification. -/
theorem split_large_stops_spec_witness :
    1 ≤ 2 ∧ SplitSpec [stopThreeStudents] 2 :=
  ⟨by decide, split_large_stops_spec [stopThreeStudents] 2 (by decide)⟩

/-- The metrics dictionary `solve_vrp_with_fleet_limit` builds on success.
The two display-only float/string entries (`efficiency_gain`, `avg_load`)
are not modelled. -/
structure VrpMetrics where
  buses_requested : ℕ
  buses_used : ℕ
  theoretical_minimum : ℕ
  total_students : ℕ
  bus_loads : List ℕ
  overloaded_buses : List ℕ
  underutilized_buses : List ℕ
  status : String
deriving DecidableEq

/-- `route_load` as computed in `solve_vrp_with_fleet_limit`: the demand of a
route's stops, the depot excluded. -/
def routeLoad (demands : List ℕ) (depot_index : ℕ) (route : List ℕ) : ℕ :=
  ((route.filter (fun i => i ≠ depot_index)).map (fun i => demands.getD i 0)).sum

/-- An OR-Tools solve attempt: given the number of vehicles, either the
per-vehicle depot-to-depot node sequences of a feasible solution found
within the time budget, or `none` when the attempt fails. -/
def VrpOracle := ℕ → Option (List (List ℕ))

/-- The candidate-fleet-size loop of `solve_vrp_with_fleet_limit`
(`routing.py` lines 47-129): carry the best routes and best used-bus count,
keep a strictly better attempt, and break early once an attempt uses at most
`theoretical_min + 2` buses. -/
def searchFleet (oracle : VrpOracle) (demands : List ℕ) (depot_index tmin : ℕ) :
    List ℕ → List (List ℕ) → ℕ → List (List ℕ) × ℕ
  | [], best_routes, best_num => (best_routes, best_num)
  | num_vehicles :: rest, best_routes, best_num =>
    match oracle num_vehicles with
    | none => searchFleet oracle demands depot_index tmin rest best_routes best_num
    | some vehicle_routes =>
      let routes := vehicle_routes.filter (fun r => 0 < routeLoad demands depot_index r)
      let buses_used := routes.length
      if buses_used < best_num then
        if buses_used ≤ tmin + 2 then (routes, buses_used)
        else searchFleet oracle demands depot_index tmin rest routes buses_used
      else searchFleet oracle demands depot_index tmin rest best_routes best_num

/-- `solve_vrp_with_fleet_limit` from `backend/models/routing.py`: derive the
default minimum fleet, the theoretical minimum `ceil(total/capacity)`, scan
candidate sizes `max(theoretical_min, min_buses) .. max_buses`, and return
either the kept routes plus metrics or the empty failure pair. -/
def solve_vrp_with_fleet_limit (oracle : VrpOracle) (demands : List ℕ)
    (vehicle_capacities : List ℕ) (depot_index max_buses : ℕ) (min_buses : Option ℕ) :
    List (List ℕ) × Option VrpMetrics :=
  let min_b := min_buses.getD (max 1 (max_buses / 2))
  let cap0 := vehicle_capacities.getD 0 0
  let total_demand := demands.sum
  let tmin := ceilDivNat total_demand cap0
  let start := max tmin min_b
  let res := searchFleet oracle demands depot_index tmin
    (List.range' start (max_buses + 1 - start)) [] max_buses
  if res.1 = [] then ([], none)
  else
    let bus_loads := res.1.map (routeLoad demands depot_index)
    (res.1, some
      { buses_requested := max_buses
        buses_used := res.2
        theoretical_minimum := tmin
        total_students := total_demand
        bus_loads := bus_loads
        overloaded_buses :=
          (List.range bus_loads.length).filter (fun i => cap0 < bus_loads.getD i 0)
        underutilized_buses :=
          (List.range bus_loads.length).filter (fun i => 2 * bus_loads.getD i 0 < cap0)
        status := if res.2 = tmin then "optimal" else "good" })

/-- A total solve oracle (every attempt feasible); its answers are never
consulted on the C1 input because the candidate range is empty. -/
def oracleAlwaysFeasible : VrpOracle := fun _ => some [[0, 1, 2, 3, 0]]

/-- C1 failing input: three unit demands, capacity 1, so the theoretical
minimum is 3, yet `max_buses = 1`. The candidate range
`range(max(3, 1), 2)` is empty, so after printing the "Proceeding with 1
buses" warning the function returns the empty failure pair instead of a
best-effort plan — even though the solver itself would have answered every
attempt. -/
theorem vrp_infeasible_min_returns_failure :
    ceilDivNat ([0, 1, 1, 1] : List ℕ).sum (([1] : List ℕ).getD 0 0) = 3 ∧
      1 < 3 ∧
      solve_vrp_with_fleet_limit oracleAlwaysFeasible [0, 1, 1, 1] [1] 0 1 none = ([], none) := by
  exact ⟨rfl, by decide, rfl⟩

/-- A solve oracle answering every attempt with the single feasible route
`[0, 1, 0]`. -/
def oracleSingleRoute : VrpOracle := fun _ => some [[0, 1, 0]]

/-- C2 failing input: one stop of demand 1, capacity 40, `max_buses = 1`.
The only candidate size (1) is tried and the oracle returns a feasible
solution whose single used bus carries load 1 ≤ 40 — yet because
`best_num_buses` starts at `max_buses = 1` and the code keeps an attempt only
when `buses_used < best_num_buses`, the feasible attempt is discarded and the
function returns the empty failure pair. -/
theorem vrp_feasible_at_max_returns_failure :
    oracleSingleRoute 1 = some [[0, 1, 0]] ∧
      routeLoad [0, 1] 0 [0, 1, 0] = 1 ∧
      (1 : ℕ) ≤ 40 ∧
      solve_vrp_with_fleet_limit oracleSingleRoute [0, 1] [40] 0 1 none = ([], none) := by
  exact ⟨rfl, rfl, by decide, rfl⟩

/-- The road network handed to `build_distance_matrix`: node ids and directed
weighted edges (the `length` attribute, a non-negative float modelled as an
exact rational). An undirected `nx.Graph` is the special case whose edge list
is closed under reversal. -/
structure RoadGraph where
  nodes : List ℕ
  edges : List (ℕ × ℕ × ℚ)

/-- One-edge extensions of an endpoint/weight walk summary. -/
def extendWalks (G : RoadGraph) (p : ℕ × ℚ) : List (ℕ × ℚ) :=
  (G.edges.filter (fun e => e.1 = p.1)).map (fun e => (e.2.1, p.2 + e.2.2))

/-- Endpoint and weight of every walk from `u` using at most `k` edges. -/
def walksUpTo (G : RoadGraph) (u : ℕ) : ℕ → List (ℕ × ℚ)
  | 0 => [(u, 0)]
  | k + 1 => (u, 0) :: (walksUpTo G u k).flatMap (extendWalks G)

/-- Weights of the bounded walks from `u` to `v`. -/
def walkWeightsTo (G : RoadGraph) (u v : ℕ) : List ℚ :=
  ((walksUpTo G u G.nodes.length).filter (fun p => p.1 = v)).map (fun p => p.2)

/-- Model of `nx.single_source_dijkstra_path_length(G, u)` read at target
`v`: the least weight over walks of at most `|nodes|` edges (for the
non-negative weights of a road graph this is the shortest-path distance, and
a bound of `|nodes|` edges loses nothing). `⊤` models `v` being absent from
the returned dict (unreachable). -/
def spDist (G : RoadGraph) (u v : ℕ) : WithTop ℚ :=
  (walkWeightsTo G u v).toFinset.min

/-- A matrix cell of one Dijkstra row: a present target is stored and later
truncated by `astype(int)`; an absent target leaves the zero-initialised
cell untouched. -/
def spEntry (o : WithTop ℚ) : ℤ :=
  match o with
  | none => 0
  | some d => truncQ d

/-- `build_distance_matrix` from `routing.py`: a zero-initialised square
matrix; each row whose source node is in the graph is filled with the
Dijkstra distances of the reachable targets (unreachable targets keep 0); a
source missing from the graph raises inside the `try`, leaving its whole row
zero. `np.nan_to_num(..., posinf=1e6)` is the identity here because the
Dijkstra dict only ever holds finite values. -/
def build_distance_matrix (G : RoadGraph) (stop_nodes : List ℕ) : List (List ℤ) :=
  stop_nodes.map (fun u =>
    if u ∈ G.nodes then stop_nodes.map (fun v => spEntry (spDist G u v))
    else stop_nodes.map (fun _ => (0 : ℤ)))

/-- Matrix access `m[i][j]`. -/
def mEntry (m : List (List ℤ)) (i j : ℕ) : ℤ := (m.getD i []).getD j 0

/-- The arc cost the routing solver actually sees:
`full_optimization_pipeline` divides the integer metre matrix by 1000
(`dist_matrix_km`) and `distance_callback` applies `int()`. -/
def vrpArcCost (dist_matrix : List (List ℤ)) (i j : ℕ) : ℤ :=
  truncQ ((mEntry dist_matrix i j : ℚ) / 1000)

/-- There is a walk from `u` to `v` of total weight `w` using `k` edges. -/
inductive WalkW (G : RoadGraph) (u : ℕ) : ℕ → ℚ → ℕ → Prop
  | nil : WalkW G u u 0 0
  | cons {x : ℕ} {w : ℚ} {k y : ℕ} {q : ℚ} :
      WalkW G u x w k → (x, y, q) ∈ G.edges → WalkW G u y (w + q) (k + 1)

theorem mem_walksUpTo (G : RoadGraph) (u : ℕ) (k : ℕ) (v : ℕ) (w : ℚ) :
    (v, w) ∈ walksUpTo G u k ↔ ∃ j, j ≤ k ∧ WalkW G u v w j := by
  induction k generalizing v w with
  | zero =>
    simp only [walksUpTo, List.mem_singleton, Prod.mk.injEq]
    constructor
    · rintro ⟨rfl, rfl⟩
      exact ⟨0, le_refl 0, WalkW.nil⟩
    · rintro ⟨j, hj, hw⟩
      have hj0 : j = 0 := by omega
      subst hj0
      cases hw
      exact ⟨rfl, rfl⟩
  | succ k ih =>
    simp only [walksUpTo, List.mem_cons, List.mem_flatMap, Prod.mk.injEq]
    constructor
    · rintro (⟨rfl, rfl⟩ | ⟨p, hp, hext⟩)
      · exact ⟨0, by omega, WalkW.nil⟩
      · obtain ⟨e, he, heq⟩ := List.mem_map.1 hext
        obtain ⟨a, b, c⟩ := e
        obtain ⟨x, wx⟩ := p
        rw [List.mem_filter, decide_eq_true_eq] at he
        obtain ⟨hmem, hfst⟩ := he
        have hax : a = x := hfst
        subst hax
        rw [Prod.mk.injEq] at heq
        obtain ⟨hbv, hwc⟩ := heq
        have hbv' : b = v := hbv
        subst hbv'
        have hwc' : wx + c = w := hwc
        subst hwc'
        obtain ⟨j, hj, hwalk⟩ := (ih a wx).1 hp
        exact ⟨j + 1, by omega, WalkW.cons hwalk hmem⟩
    · rintro ⟨j, hj, hw⟩
      cases hw with
      | nil => exact Or.inl ⟨rfl, rfl⟩
      | cons hw' he =>
        rename_i x w' k' q
        right
        refine ⟨(x, w'), (ih x w').2 ⟨k', by omega, hw'⟩, ?_⟩
        apply List.mem_map.2
        refine ⟨(x, v, q), ?_, rfl⟩
        rw [List.mem_filter, decide_eq_true_eq]
        exact ⟨he, rfl⟩

theorem WalkW.prepend {G : RoadGraph} {a b : ℕ} {w : ℚ} {k : ℕ}
    (hw : WalkW G a b w k) {c : ℕ} {q : ℚ} (he : (c, a, q) ∈ G.edges) :
    WalkW G c b (q + w) (k + 1) := by
  induction hw with
  | nil =>
    have := WalkW.cons (WalkW.nil (G := G) (u := c)) he
    simpa using this
  | @cons x w' k' y q' hw' he' ih =>
    have := WalkW.cons ih he'
    have heq : q + w' + q' = q + (w' + q') := by ring
    rw [heq] at this
    exact this

theorem WalkW.reverse {G : RoadGraph}
    (hU : ∀ a b q, (a, b, q) ∈ G.edges → (b, a, q) ∈ G.edges)
    {u v : ℕ} {w : ℚ} {k : ℕ} (hw : WalkW G u v w k) : WalkW G v u w k := by
  induction hw with
  | nil => exact WalkW.nil
  | @cons x w' k' y q hw' he ih =>
    have := WalkW.prepend ih (hU _ _ _ he)
    have heq : q + w' = w' + q := by ring
    rw [heq] at this
    exact this

theorem WalkW.weight_nonneg {G : RoadGraph}
    (hw0 : ∀ e ∈ G.edges, 0 ≤ e.2.2) {u v : ℕ} {w : ℚ} {k : ℕ}
    (h : WalkW G u v w k) : 0 ≤ w := by
  induction h with
  | nil => exact le_refl 0
  | @cons x w' k' y q hw' he ih =>
    have hq : (0 : ℚ) ≤ q := hw0 (x, y, q) he
    linarith

theorem WalkW.ends {G : RoadGraph} {u v : ℕ} {w : ℚ} {k : ℕ} (h : WalkW G u v w k) :
    v = u ∨ ∃ x q, (x, v, q) ∈ G.edges := by
  cases h with
  | nil => exact Or.inl rfl
  | @cons x w' k' y q hw' he => exact Or.inr ⟨x, q, he⟩

theorem mem_walkWeightsTo {G : RoadGraph} {u v : ℕ} {w : ℚ} :
    w ∈ walkWeightsTo G u v ↔ ∃ j, j ≤ G.nodes.length ∧ WalkW G u v w j := by
  unfold walkWeightsTo
  constructor
  · intro h
    obtain ⟨p, hp, hw⟩ := List.mem_map.1 h
    obtain ⟨x, wx⟩ := p
    rw [List.mem_filter, decide_eq_true_eq] at hp
    obtain ⟨hmem, hfst⟩ := hp
    have hxv : x = v := hfst
    subst hxv
    have hww : wx = w := hw
    subst hww
    exact (mem_walksUpTo G u G.nodes.length x wx).1 hmem
  · intro h
    apply List.mem_map.2
    refine ⟨(v, w), ?_, rfl⟩
    rw [List.mem_filter, decide_eq_true_eq]
    exact ⟨(mem_walksUpTo G u G.nodes.length v w).2 h, rfl⟩

theorem spDist_self {G : RoadGraph} (hw0 : ∀ e ∈ G.edges, 0 ≤ e.2.2) (u : ℕ) :
    spDist G u u = ((0 : ℚ) : WithTop ℚ) := by
  apply le_antisymm
  · apply Finset.min_le
    rw [List.mem_toFinset, mem_walkWeightsTo]
    exact ⟨0, Nat.zero_le _, WalkW.nil⟩
  · apply Finset.le_min
    intro b hb
    rw [List.mem_toFinset, mem_walkWeightsTo] at hb
    obtain ⟨j, _, hwj⟩ := hb
    exact_mod_cast hwj.weight_nonneg hw0

theorem spDist_symm {G : RoadGraph}
    (hU : ∀ a b q, (a, b, q) ∈ G.edges → (b, a, q) ∈ G.edges) (u v : ℕ) :
    spDist G u v = spDist G v u := by
  unfold spDist
  congr 1
  apply Finset.ext
  intro x
  rw [List.mem_toFinset, List.mem_toFinset, mem_walkWeightsTo, mem_walkWeightsTo]
  constructor
  · rintro ⟨j, hj, hw⟩
    exact ⟨j, hj, hw.reverse hU⟩
  · rintro ⟨j, hj, hw⟩
    exact ⟨j, hj, hw.reverse hU⟩

theorem spDist_eq_top {G : RoadGraph}
    (hcl : ∀ e ∈ G.edges, e.1 ∈ G.nodes ∧ e.2.1 ∈ G.nodes)
    {u v : ℕ} (hv : v ∉ G.nodes) (huv : u ≠ v) : spDist G u v = ⊤ := by
  unfold spDist
  rw [Finset.min_eq_top, Finset.eq_empty_iff_forall_not_mem]
  intro w hw
  rw [List.mem_toFinset, mem_walkWeightsTo] at hw
  obtain ⟨j, _, hwalk⟩ := hw
  rcases hwalk.ends with hvu | ⟨x, q, he⟩
  · exact huv hvu.symm
  · exact hv (hcl (x, v, q) he).2

theorem mEntry_build {G : RoadGraph} {stop_nodes : List ℕ} {i j : ℕ}
    (hi : i < stop_nodes.length) (hj : j < stop_nodes.length) :
    mEntry (build_distance_matrix G stop_nodes) i j =
      if stop_nodes[i] ∈ G.nodes then spEntry (spDist G stop_nodes[i] stop_nodes[j])
      else 0 := by
  unfold mEntry build_distance_matrix
  have hi' : i < (stop_nodes.map (fun u =>
      if u ∈ G.nodes then stop_nodes.map (fun v => spEntry (spDist G u v))
      else stop_nodes.map (fun _ => (0 : ℤ)))).length := by
    simpa using hi
  rw [List.getD_eq_getElem _ _ hi', List.getElem_map]
  by_cases hu : stop_nodes[i] ∈ G.nodes
  · rw [if_pos hu, if_pos hu]
    have hj' : j < (stop_nodes.map (fun v => spEntry (spDist G stop_nodes[i] v))).length := by
      simpa using hj
    rw [List.getD_eq_getElem _ _ hj', List.getElem_map]
  · rw [if_neg hu, if_neg hu]
    have hj' : j < (stop_nodes.map (fun _ : ℕ => (0 : ℤ))).length := by
      simpa using hj
    rw [List.getD_eq_getElem _ _ hj', List.getElem_map]

theorem spEntry_coe (d : ℚ) : spEntry (d : WithTop ℚ) = truncQ d := rfl

theorem spEntry_top : spEntry (⊤ : WithTop ℚ) = 0 := rfl

/-- C9: the distance matrix has a zero diagonal and is symmetric whenever the
supplied road graph is undirected. The two standing hypotheses record the
RoadGraph data-model invariants: non-negative edge lengths (required for the
Dijkstra model — NetworkX raises on negative weights) and edges joining
nodes of the graph. -/
theorem build_distance_matrix_zero_diag_symm (G : RoadGraph) (stop_nodes : List ℕ)
    (hw0 : ∀ e ∈ G.edges, 0 ≤ e.2.2)
    (hcl : ∀ e ∈ G.edges, e.1 ∈ G.nodes ∧ e.2.1 ∈ G.nodes) :
    (∀ i, (hi : i < stop_nodes.length) →
      mEntry (build_distance_matrix G stop_nodes) i i = 0) ∧
    ((∀ a b q, (a, b, q) ∈ G.edges → (b, a, q) ∈ G.edges) →
      ∀ i j, (hi : i < stop_nodes.length) → (hj : j < stop_nodes.length) →
        mEntry (build_distance_matrix G stop_nodes) i j =
          mEntry (build_distance_matrix G stop_nodes) j i) := by
  constructor
  · intro i hi
    rw [mEntry_build hi hi]
    by_cases hu : stop_nodes[i] ∈ G.nodes
    · rw [if_pos hu, spDist_self hw0, spEntry_coe]
      decide
    · rw [if_neg hu]
  · intro hU i j hi hj
    rw [mEntry_build hi hj, mEntry_build hj hi]
    by_cases hu : stop_nodes[i] ∈ G.nodes <;> by_cases hv : stop_nodes[j] ∈ G.nodes
    · rw [if_pos hu, if_pos hv, spDist_symm hU]
    · rw [if_pos hu, if_neg hv]
      have hne : stop_nodes[i] ≠ stop_nodes[j] := fun h => hv (h ▸ hu)
      rw [spDist_eq_top hcl hv hne, spEntry_top]
    · rw [if_neg hu, if_pos hv]
      have hne : stop_nodes[j] ≠ stop_nodes[i] := fun h => hu (h ▸ hv)
      rw [spDist_eq_top hcl hu hne, spEntry_top]
    · rw [if_neg hu, if_neg hv]

/-- A two-node road graph with one symmetric edge of length 3. -/
def smallGraph : RoadGraph := { nodes := [1, 2], edges := [(1, 2, 3), (2, 1, 3)] }

/-- Witness instance for the diagonal/symmetry theorem. -/
theorem build_distance_matrix_zero_diag_symm_witness :
    (∀ e ∈ smallGraph.edges, 0 ≤ e.2.2) ∧
      (∀ e ∈ smallGraph.edges, e.1 ∈ smallGraph.nodes ∧ e.2.1 ∈ smallGraph.nodes) ∧
      ((∀ i, (hi : i < ([1, 2] : List ℕ).length) →
          mEntry (build_distance_matrix smallGraph [1, 2]) i i = 0) ∧
        ((∀ a b q, (a, b, q) ∈ smallGraph.edges → (b, a, q) ∈ smallGraph.edges) →
          ∀ i j, (hi : i < ([1, 2] : List ℕ).length) → (hj : j < ([1, 2] : List ℕ).length) →
            mEntry (build_distance_matrix smallGraph [1, 2]) i j =
              mEntry (build_distance_matrix smallGraph [1, 2]) j i)) :=
  ⟨by decide, by decide,
    build_distance_matrix_zero_diag_symm smallGraph [1, 2] (by decide) (by decide)⟩

/-- Two mutually unreachable stop nodes. -/
def twoIslandGraph : RoadGraph := { nodes := [10, 20], edges := [] }

/-- C3 failing input: on a graph whose two stop nodes are unreachable from
one another the whole matrix — including the unreachable pair at `[0][1]` —
is 0, not the 1,000,000 sentinel: the matrix is zero-initialised, missing
Dijkstra targets are simply skipped, and `nan_to_num(..., posinf=1e6)` never
fires because the Dijkstra dict contains no infinities. -/
theorem unreachable_pair_entry_is_zero :
    build_distance_matrix twoIslandGraph [10, 20] = [[0, 0], [0, 0]] ∧
      mEntry (build_distance_matrix twoIslandGraph [10, 20]) 0 1 = 0 ∧
      (0 : ℤ) ≠ 1000000 := by
  refine ⟨by decide, by decide, by decide⟩

/-- C10: the solver's arc cost is the `int()` truncation of the km-valued
matrix entry, and any pair at driving distance under 1 km (under 1000
integer metre units) gets arc cost exactly 0. -/
theorem vrp_arc_cost_spec :
    (∀ m i j, vrpArcCost m i j = truncQ ((mEntry m i j : ℚ) / 1000)) ∧
    ∀ (G : RoadGraph) (stop_nodes : List ℕ) (i j : ℕ) (d : ℚ),
      (hi : i < stop_nodes.length) → (hj : j < stop_nodes.length) →
      stop_nodes[i] ∈ G.nodes →
      spDist G stop_nodes[i] stop_nodes[j] = (d : WithTop ℚ) →
      0 ≤ d → d < 1000 →
      vrpArcCost (build_distance_matrix G stop_nodes) i j = 0 := by
  constructor
  · intro m i j
    rfl
  · intro G stop_nodes i j d hi hj hu hd h0 h1000
    have hent : mEntry (build_distance_matrix G stop_nodes) i j = truncQ d := by
      rw [mEntry_build hi hj, if_pos hu, hd, spEntry_coe]
    have htr : truncQ d = ⌊d⌋ := by
      rw [truncQ, if_neg (not_lt.2 h0)]
    have hfl0 : 0 ≤ ⌊d⌋ := Int.le_floor.2 (by exact_mod_cast h0)
    have hfl1 : ⌊d⌋ < 1000 := by
      rw [Int.floor_lt]
      exact_mod_cast h1000
    unfold vrpArcCost
    rw [hent, htr]
    have he0 : (0 : ℚ) ≤ ((⌊d⌋ : ℤ) : ℚ) / 1000 := by
      apply div_nonneg _ (by norm_num)
      exact_mod_cast hfl0
    have he1 : ((⌊d⌋ : ℤ) : ℚ) / 1000 < 1 := by
      rw [div_lt_one (by norm_num)]
      exact_mod_cast hfl1
    rw [truncQ, if_neg (not_lt.2 he0)]
    exact Int.floor_eq_zero_iff.2 ⟨he0, he1⟩

/-- Witness: in `smallGraph` the stops at positions 0 and 1 are 3 units
apart, well under 1000, so the solver sees arc cost 0. -/
theorem vrp_arc_cost_spec_witness :
    spDist smallGraph 1 2 = ((3 : ℚ) : WithTop ℚ) ∧
      (0 : ℚ) ≤ 3 ∧ (3 : ℚ) < 1000 ∧
      vrpArcCost (build_distance_matrix smallGraph [1, 2]) 0 1 = 0 := by
  have hlist : walkWeightsTo smallGraph 1 2 = [0 + 3] := rfl
  have h3 : (0 : ℚ) + 3 = 3 := by norm_num
  have hsp : spDist smallGraph 1 2 = ((3 : ℚ) : WithTop ℚ) := by
    unfold spDist
    rw [hlist, h3]
    simp
  exact ⟨hsp, by norm_num, by norm_num,
    vrp_arc_cost_spec.2 smallGraph [1, 2] 0 1 3 (by decide) (by decide) (by decide) hsp
      (by norm_num) (by norm_num)⟩

/-- Degrees to radians, as `np.radians`. -/
noncomputable def degRad (x : ℝ) : ℝ := x * Real.pi / 180

/-- `sklearn.metrics.pairwise.haversine_distances` on one pair of
already-radian coordinates (latitude `p`, longitude `l`). -/
noncomputable def haversineRadians (p1 l1 p2 l2 : ℝ) : ℝ :=
  2 * Real.arcsin (Real.sqrt
    (Real.sin ((p2 - p1) / 2) ^ 2 + Real.cos p1 * Real.cos p2 * Real.sin ((l2 - l1) / 2) ^ 2))

/-- Great-circle distance in km between two degree coordinates, as computed
in `enforce_max_distance`: convert to radians, haversine, scale by the Earth
radius 6371. Python float arithmetic is modelled exactly over `ℝ`. -/
noncomputable def haversineKm (p q : ℝ × ℝ) : ℝ :=
  6371 * haversineRadians (degRad p.1) (degRad p.2) (degRad q.1) (degRad q.2)

/-- A row of `df_bus` as read by `enforce_max_distance`: coordinates plus the
mutable `assigned_stop_id` column. -/
structure StudentRow where
  latitude : ℝ
  longitude : ℝ
  assigned_stop_id : ℕ

/-- The rows of one cluster (`new_df[new_df['assigned_stop_id'] == id]`). -/
def groupOf (rows : List StudentRow) (id : ℕ) : List StudentRow :=
  rows.filter (fun r => r.assigned_stop_id = id)

/-- The cluster keys, in the sorted order `pandas.groupby` iterates them. -/
def keysOf (rows : List StudentRow) : List ℕ :=
  List.insertionSort (fun a b => a ≤ b) (rows.map (fun r => r.assigned_stop_id)).dedup

/-- A cluster's centre: the mean of its member coordinates. -/
noncomputable def centroidOf (g : List StudentRow) : ℝ × ℝ :=
  ((g.map (fun r => r.latitude)).sum / g.length, (g.map (fun r => r.longitude)).sum / g.length)

/-- The `distance_to_stop_km` column entry for row `r` of cluster `g`. -/
noncomputable def rowDist (g : List StudentRow) (r : StudentRow) : ℝ :=
  haversineKm (r.latitude, r.longitude) (centroidOf g)

/-- The distance column restricted to one cluster. -/
noncomputable def distsOf (rows : List StudentRow) (id : ℕ) : List ℝ :=
  (groupOf rows id).map (rowDist (groupOf rows id))

/-- `pandas.Series.max` on a non-empty column. -/
noncomputable def maxOf : List ℝ → ℝ
  | [] => 0
  | x :: xs => xs.foldl max x

open Classical in
/-- The `problematic_clusters` list: keys of groups whose distance column
maximum exceeds the bound. -/
noncomputable def problematicOf (rows : List StudentRow) (max_distance_km : ℝ) : List ℕ :=
  (keysOf rows).filter (fun id => decide (max_distance_km < maxOf (distsOf rows id)))

/-- The oracle interface of
`KMeans(n_clusters=k, random_state=42).fit_predict(coords)`: one label per
coordinate, or `none` for a raised `ValueError`. -/
def KMOracle := ℕ → List (ℝ × ℝ) → Option (List ℕ)

/-- Model of the sklearn call: it rejects `n_clusters > n_samples` with a
`ValueError`; otherwise it returns one label below `n_clusters` per sample.
The concrete labels stand in for the data-dependent clustering — no theorem
below depends on them, only on the failure contract. -/
def kmeansModel : KMOracle := fun n_clusters cs =>
  if cs.length < n_clusters then none
  else some ((List.range cs.length).map (fun i => i % n_clusters))

/-- The reassignment loop
`new_df.at[student_idx, 'assigned_stop_id'] = max_existing_id + new_labels[i]`
over the rows of cluster `p`, in row order: the i-th row of the cluster gets
`base + labels[i]`. (The labels list never runs out in the source, where
KMeans returns one label per group member; an exhausted list leaves rows
unchanged.) -/
def relabel (p base : ℕ) : List StudentRow → List ℕ → List StudentRow
  | [], _ => []
  | r :: rs, [] => r :: relabel p base rs []
  | r :: rs, l :: ls2 =>
    if r.assigned_stop_id = p then
      { r with assigned_stop_id := base + l } :: relabel p base rs ls2
    else r :: relabel p base rs (l :: ls2)

/-- `num_subclusters = max(2, ceil(group_max_distance / max_distance_km))`. -/
noncomputable def subCount (max_distance_km : ℝ) (g : List StudentRow) : ℕ :=
  max 2 (⌈maxOf (g.map (rowDist g)) / max_distance_km⌉.toNat)

/-- The per-pass loop over `problematic_clusters`, threading the fresh-id
counter `max_existing_id`; a subclustering failure propagates as the raised
exception. -/
noncomputable def splitAll (o : KMOracle) (max_distance_km : ℝ) :
    List ℕ → List StudentRow → ℕ → Option (List StudentRow)
  | [], rows, _ => some rows
  | p :: ps, rows, base =>
    match o (subCount max_distance_km (groupOf rows p))
        ((groupOf rows p).map (fun r => (r.latitude, r.longitude))) with
    | none => none
    | some ls =>
      splitAll o max_distance_km ps (relabel p base rows ls)
        (base + subCount max_distance_km (groupOf rows p))

/-- `new_df['assigned_stop_id'].max()`. -/
def maxIdOf (rows : List StudentRow) : ℕ :=
  (rows.map (fun r => r.assigned_stop_id)).foldr max 0

/-- Outcome of the repair loop: normal exit, a raised exception from the
subclustering call, or the `while True` loop not having exited within the
allotted number of passes. -/
inductive EnforceResult
  | ok (rows : List StudentRow)
  | crashed
  | fuelOut

/-- The `while True` repair loop of `enforce_max_distance`, one pass per unit
of fuel, parametrised by the subclustering oracle. -/
noncomputable def enforceLoopO (o : KMOracle) (max_distance_km : ℝ) :
    ℕ → List StudentRow → EnforceResult
  | 0, _ => .fuelOut
  | fuel + 1, rows =>
    if problematicOf rows max_distance_km = [] then .ok rows
    else
      match splitAll o max_distance_km (problematicOf rows max_distance_km) rows
          (maxIdOf rows + 1) with
      | none => .crashed
      | some rows2 => enforceLoopO o max_distance_km fuel rows2

/-- `enforce_max_distance` from `backend/models/clustering.py`, with the
sklearn KMeans model plugged in. -/
noncomputable def enforce_max_distance (df_bus : List StudentRow) (max_distance_km : ℝ)
    (fuel : ℕ) : EnforceResult :=
  enforceLoopO kmeansModel max_distance_km fuel df_bus

/-- The repair loop reaches its normal exit within some finite number of
passes. -/
def enforceTerminates (df_bus : List StudentRow) (max_distance_km : ℝ) : Prop :=
  ∃ fuel rows2, enforce_max_distance df_bus max_distance_km fuel = .ok rows2

theorem haversineKm_self (p : ℝ × ℝ) : haversineKm p p = 0 := by
  unfold haversineKm haversineRadians
  simp [sub_self]

theorem foldl_max_bounds (xs : List ℝ) (b : ℝ) :
    b ≤ xs.foldl max b ∧ ∀ a ∈ xs, a ≤ xs.foldl max b := by
  induction xs generalizing b with
  | nil => exact ⟨le_refl b, by simp⟩
  | cons x xs ih =>
    have h1 := ih (max b x)
    rw [List.foldl_cons]
    refine ⟨le_trans (le_max_left b x) h1.1, ?_⟩
    intro a ha
    rcases List.mem_cons.1 ha with rfl | hx
    · exact le_trans (le_max_right b a) h1.1
    · exact h1.2 a hx

theorem foldl_max_le {xs : List ℝ} {b c : ℝ} (hb : b ≤ c) (h : ∀ a ∈ xs, a ≤ c) :
    xs.foldl max b ≤ c := by
  induction xs generalizing b with
  | nil => exact hb
  | cons x xs ih =>
    rw [List.foldl_cons]
    exact ih (max_le hb (h x (List.mem_cons_self x xs))) fun a ha => h a (List.mem_cons_of_mem x ha)

theorem le_maxOf {l : List ℝ} {a : ℝ} (h : a ∈ l) : a ≤ maxOf l := by
  cases l with
  | nil => cases h
  | cons x xs =>
    rw [maxOf]
    rcases List.mem_cons.1 h with rfl | hx
    · exact (foldl_max_bounds xs a).1
    · exact (foldl_max_bounds xs x).2 a hx

theorem maxOf_le {l : List ℝ} {c : ℝ} (hne : l ≠ []) (h : ∀ a ∈ l, a ≤ c) : maxOf l ≤ c := by
  cases l with
  | nil => exact absurd rfl hne
  | cons x xs =>
    rw [maxOf]
    exact foldl_max_le (h x (List.mem_cons_self x xs)) fun a ha => h a (List.mem_cons_of_mem x ha)

theorem mem_keysOf {rows : List StudentRow} {id : ℕ} :
    id ∈ keysOf rows ↔ id ∈ rows.map (fun r => r.assigned_stop_id) := by
  unfold keysOf
  rw [(List.perm_insertionSort _ _).mem_iff, List.mem_dedup]

theorem keysOf_nodup (rows : List StudentRow) : (keysOf rows).Nodup := by
  unfold keysOf
  exact (List.perm_insertionSort _ _).nodup_iff.2 (List.nodup_dedup _)

theorem mem_groupOf {rows : List StudentRow} {id : ℕ} {r : StudentRow} :
    r ∈ groupOf rows id ↔ r ∈ rows ∧ r.assigned_stop_id = id := by
  rw [groupOf, List.mem_filter, decide_eq_true_eq]

theorem groupOf_ne_nil {rows : List StudentRow} {id : ℕ} (h : id ∈ keysOf rows) :
    groupOf rows id ≠ [] := by
  rw [mem_keysOf] at h
  obtain ⟨r, hr, hid⟩ := List.mem_map.1 h
  intro hnil
  have hmem : r ∈ groupOf rows id := mem_groupOf.2 ⟨hr, hid⟩
  rw [hnil] at hmem
  cases hmem

theorem mem_problematicOf {rows : List StudentRow} {maxD : ℝ} {p : ℕ} :
    p ∈ problematicOf rows maxD ↔ p ∈ keysOf rows ∧ maxD < maxOf (distsOf rows p) := by
  rw [problematicOf, List.mem_filter, decide_eq_true_eq]

/-- C8: if every student already lies within the bound of its cluster's
recomputed centroid, the first pass of `enforce_max_distance` finds no
problematic cluster and the loop exits at once: no splits happen and every
assignment is returned unchanged. -/
theorem enforce_noop_on_valid (rows : List StudentRow) (max_distance_km : ℝ) (fuel : ℕ)
    (hf : 0 < fuel)
    (h : ∀ r ∈ rows, rowDist (groupOf rows r.assigned_stop_id) r ≤ max_distance_km) :
    enforce_max_distance rows max_distance_km fuel = .ok rows := by
  obtain ⟨n, rfl⟩ : ∃ n, fuel = n + 1 := ⟨fuel - 1, by omega⟩
  have hprob : problematicOf rows max_distance_km = [] := by
    rw [problematicOf, List.filter_eq_nil_iff]
    intro id hid
    rw [decide_eq_true_eq, not_lt]
    apply maxOf_le
    · intro hnil
      exact groupOf_ne_nil hid (by simpa [distsOf] using hnil)
    · intro a ha
      obtain ⟨r, hr, rfl⟩ := List.mem_map.1 ha
      have hmem := mem_groupOf.1 hr
      have hle := h r hmem.1
      rw [hmem.2] at hle
      exact hle
  rw [enforce_max_distance]
  rw [enforceLoopO, if_pos hprob]

/-- Two students at the same coordinate sharing stop 5. -/
noncomputable def rowsSame : List StudentRow :=
  [{ latitude := 0, longitude := 0, assigned_stop_id := 5 },
   { latitude := 0, longitude := 0, assigned_stop_id := 5 }]

/-- Witness: an already-valid assignment is returned unchanged in one pass. -/
theorem enforce_noop_on_valid_witness :
    (0 : ℕ) < 1 ∧
      (∀ r ∈ rowsSame, rowDist (groupOf rowsSame r.assigned_stop_id) r ≤ (1 : ℝ)) ∧
      enforce_max_distance rowsSame 1 1 = .ok rowsSame := by
  have hval : ∀ r ∈ rowsSame, rowDist (groupOf rowsSame r.assigned_stop_id) r ≤ (1 : ℝ) := by
    intro r hr
    have hr5 : r.assigned_stop_id = 5 ∧ r.latitude = 0 ∧ r.longitude = 0 := by
      rw [rowsSame] at hr
      rcases List.mem_cons.1 hr with rfl | hr2
      · exact ⟨rfl, rfl, rfl⟩
      · rcases List.mem_cons.1 hr2 with rfl | hr3
        · exact ⟨rfl, rfl, rfl⟩
        · cases hr3
    have hgrp : groupOf rowsSame r.assigned_stop_id = rowsSame := by
      rw [hr5.1, groupOf, rowsSame]
      rfl
    have hcent : centroidOf rowsSame = (0, 0) := by
      rw [centroidOf, rowsSame]
      norm_num
    rw [rowDist, hgrp, hcent, hr5.2.1, hr5.2.2, haversineKm_self]
    norm_num
  exact ⟨by norm_num, hval, enforce_noop_on_valid rowsSame 1 1 (by norm_num) hval⟩

theorem haversineRadians_symm (p1 l1 p2 l2 : ℝ) :
    haversineRadians p1 l1 p2 l2 = haversineRadians p2 l2 p1 l1 := by
  unfold haversineRadians
  have h : Real.sin ((p1 - p2) / 2) ^ 2 + Real.cos p2 * Real.cos p1 * Real.sin ((l1 - l2) / 2) ^ 2
      = Real.sin ((p2 - p1) / 2) ^ 2 + Real.cos p1 * Real.cos p2 * Real.sin ((l2 - l1) / 2) ^ 2 := by
    rw [show (p1 - p2) / 2 = -((p2 - p1) / 2) by ring, show (l1 - l2) / 2 = -((l2 - l1) / 2) by ring,
      Real.sin_neg, Real.sin_neg]
    ring
  rw [h]

theorem haversineKm_symm (p q : ℝ × ℝ) : haversineKm p q = haversineKm q p := by
  unfold haversineKm
  rw [haversineRadians_symm]

theorem haversineRadians_sameLon (p1 p2 l : ℝ) (h0 : 0 ≤ (p2 - p1) / 2)
    (h2 : (p2 - p1) / 2 ≤ Real.pi / 2) :
    haversineRadians p1 l p2 l = p2 - p1 := by
  unfold haversineRadians
  have hz : Real.sin ((p2 - p1) / 2) ^ 2 + Real.cos p1 * Real.cos p2 * Real.sin ((l - l) / 2) ^ 2
      = Real.sin ((p2 - p1) / 2) ^ 2 := by
    rw [sub_self, zero_div, Real.sin_zero]
    ring
  have hsin : 0 ≤ Real.sin ((p2 - p1) / 2) :=
    Real.sin_nonneg_of_nonneg_of_le_pi h0 (le_trans h2 (by linarith [Real.pi_pos]))
  rw [hz, Real.sqrt_sq_eq_abs, abs_of_nonneg hsin,
    Real.arcsin_sin (by linarith [Real.pi_pos]) h2]
  ring

theorem haversineKm_sameLon (a b c : ℝ) (h0 : 0 ≤ degRad b - degRad a)
    (h2 : degRad b - degRad a ≤ Real.pi) :
    haversineKm (a, c) (b, c) = 6371 * (degRad b - degRad a) := by
  unfold haversineKm
  rw [haversineRadians_sameLon (degRad a) (degRad b) (degRad c) (by linarith) (by linarith)]

/-- Two students on the same meridian, 0.2 degrees of latitude (about 22 km)
apart, sharing stop 0. -/
noncomputable def rowsFar : List StudentRow :=
  [{ latitude := 0, longitude := 0, assigned_stop_id := 0 },
   { latitude := 1 / 5, longitude := 0, assigned_stop_id := 0 }]

theorem rowsFar_keys : keysOf rowsFar = [0] := rfl

theorem rowsFar_group : groupOf rowsFar 0 = rowsFar := rfl

theorem rowsFar_centroid : centroidOf rowsFar = (1 / 10, 0) := by
  rw [centroidOf, rowsFar]
  norm_num

theorem rowsFar_distance_column :
    rowsFar.map (rowDist rowsFar) = [6371 * (Real.pi / 1800), 6371 * (Real.pi / 1800)] := by
  have hb1 : (0 : ℝ) ≤ degRad (1 / 10) - degRad 0 := by
    simp only [degRad]
    linarith [Real.pi_pos]
  have hb2 : degRad (1 / 10 : ℝ) - degRad 0 ≤ Real.pi := by
    simp only [degRad]
    linarith [Real.pi_pos]
  have hb3 : (0 : ℝ) ≤ degRad (1 / 5) - degRad (1 / 10) := by
    simp only [degRad]
    linarith [Real.pi_pos]
  have hb4 : degRad (1 / 5 : ℝ) - degRad (1 / 10) ≤ Real.pi := by
    simp only [degRad]
    linarith [Real.pi_pos]
  have hv1 : degRad (1 / 10 : ℝ) - degRad 0 = Real.pi / 1800 := by
    simp only [degRad]
    ring
  have hv2 : degRad (1 / 5 : ℝ) - degRad (1 / 10) = Real.pi / 1800 := by
    simp only [degRad]
    ring
  have hr1 : rowDist rowsFar { latitude := 0, longitude := 0, assigned_stop_id := 0 }
      = 6371 * (degRad (1 / 10) - degRad 0) := by
    rw [rowDist, rowsFar_centroid]
    exact haversineKm_sameLon 0 (1 / 10) 0 hb1 hb2
  have hr2 : rowDist rowsFar { latitude := 1 / 5, longitude := 0, assigned_stop_id := 0 }
      = 6371 * (degRad (1 / 5) - degRad (1 / 10)) := by
    rw [rowDist, rowsFar_centroid]
    exact (haversineKm_symm ((1 / 5 : ℝ), (0 : ℝ)) ((1 / 10 : ℝ), (0 : ℝ))).trans
      (haversineKm_sameLon (1 / 10) (1 / 5) 0 hb3 hb4)
  have e1 : rowsFar.map (rowDist rowsFar) =
      [rowDist rowsFar { latitude := 0, longitude := 0, assigned_stop_id := 0 },
       rowDist rowsFar { latitude := 1 / 5, longitude := 0, assigned_stop_id := 0 }] := rfl
  rw [e1, hr1, hr2, hv1, hv2]

theorem rowsFar_max_distance :
    maxOf (rowsFar.map (rowDist rowsFar)) = 6371 * (Real.pi / 1800) := by
  rw [rowsFar_distance_column]
  have : maxOf [6371 * (Real.pi / 1800), 6371 * (Real.pi / 1800)] =
      max (6371 * (Real.pi / 1800)) (6371 * (Real.pi / 1800)) := rfl
  rw [this, max_self]

theorem rowsFar_problematic : problematicOf rowsFar 1 = [0] := by
  have hlt : (1 : ℝ) < maxOf (distsOf rowsFar 0) := by
    rw [distsOf, rowsFar_group, rowsFar_max_distance]
    linarith [Real.pi_gt_three]
  rw [problematicOf, rowsFar_keys]
  simp only [List.filter_cons, List.filter_nil, decide_eq_true_eq]
  rw [if_pos hlt]

theorem rowsFar_subCount_gt : 2 < subCount 1 (groupOf rowsFar 0) := by
  rw [rowsFar_group, subCount, rowsFar_max_distance, div_one]
  apply lt_max_of_lt_right
  rw [Int.lt_toNat, Int.lt_ceil]
  push_cast
  linarith [Real.pi_gt_three]

theorem rowsFar_split_crashes :
    splitAll kmeansModel 1 [0] rowsFar (maxIdOf rowsFar + 1) = none := by
  rw [splitAll]
  have hlen : ((groupOf rowsFar 0).map fun r => (r.latitude, r.longitude)).length = 2 := by
    rw [rowsFar_group]
    rfl
  have hor : kmeansModel (subCount 1 (groupOf rowsFar 0))
      ((groupOf rowsFar 0).map fun r => (r.latitude, r.longitude)) = none := by
    show (if ((groupOf rowsFar 0).map fun r => (r.latitude, r.longitude)).length <
          subCount 1 (groupOf rowsFar 0) then none
        else some ((List.range
          ((groupOf rowsFar 0).map fun r => (r.latitude, r.longitude)).length).map
            (fun i => i % subCount 1 (groupOf rowsFar 0)))) = none
    rw [hlen, if_pos rowsFar_subCount_gt]
  rw [hor]

/-- The number of distinct stop ids an assignment uses. -/
def stopIdCard (rows : List StudentRow) : ℕ :=
  (rows.map (fun r => r.assigned_stop_id)).toFinset.card

/-- A subclustering oracle that always succeeds in splitting a group of at
least two members into at least two non-empty subclusters with in-range
labels (what sklearn KMeans guarantees whenever `n_clusters ≤ n_samples`). -/
def OracleSplits (o : KMOracle) : Prop :=
  ∀ k cs, 2 ≤ k → 2 ≤ cs.length →
    ∃ ls, o k cs = some ls ∧ ls.length = cs.length ∧ (∀ l ∈ ls, l < k) ∧
      2 ≤ ls.toFinset.card

theorem relabel_length (p base : ℕ) (rows : List StudentRow) (ls : List ℕ) :
    (relabel p base rows ls).length = rows.length := by
  induction rows generalizing ls with
  | nil => rfl
  | cons r rs ih =>
    cases ls with
    | nil =>
      rw [relabel]
      simp [ih]
    | cons l ls2 =>
      rw [relabel]
      by_cases h : r.assigned_stop_id = p
      · rw [if_pos h]
        simp [ih]
      · rw [if_neg h]
        simp [ih]

theorem groupOf_cons_pos {r : StudentRow} {rs : List StudentRow} {p : ℕ}
    (h : r.assigned_stop_id = p) : groupOf (r :: rs) p = r :: groupOf rs p := by
  rw [groupOf, groupOf, List.filter_cons]
  simp [h]

theorem groupOf_cons_neg {r : StudentRow} {rs : List StudentRow} {p : ℕ}
    (h : ¬ r.assigned_stop_id = p) : groupOf (r :: rs) p = groupOf rs p := by
  rw [groupOf, groupOf, List.filter_cons]
  simp [h]

theorem relabel_ids_perm (p base : ℕ) (rows : List StudentRow) (ls : List ℕ)
    (hlen : ls.length = (groupOf rows p).length) :
    ((relabel p base rows ls).map (fun r => r.assigned_stop_id)).Perm
      (((rows.map (fun r => r.assigned_stop_id)).filter (fun i => i ≠ p)) ++
        ls.map (fun l => base + l)) := by
  induction rows generalizing ls with
  | nil =>
    have hnil : ls = [] := List.length_eq_zero.1 (by simpa [groupOf] using hlen)
    subst hnil
    simp [relabel]
  | cons r rs ih =>
    by_cases h : r.assigned_stop_id = p
    · rw [groupOf_cons_pos h] at hlen
      cases ls with
      | nil => simp at hlen
      | cons l ls2 =>
        have hlen2 : ls2.length = (groupOf rs p).length := by simpa using hlen
        rw [relabel, if_pos h]
        have hfil : ((r :: rs).map (fun r => r.assigned_stop_id)).filter (fun i => i ≠ p)
            = (rs.map (fun r => r.assigned_stop_id)).filter (fun i => i ≠ p) := by
          simp [List.filter_cons, h]
        rw [hfil]
        simp only [List.map_cons]
        exact ((ih ls2 hlen2).cons (base + l)).trans List.perm_middle.symm
    · rw [groupOf_cons_neg h] at hlen
      have hfil : ((r :: rs).map (fun r => r.assigned_stop_id)).filter (fun i => i ≠ p)
          = r.assigned_stop_id ::
            ((rs.map (fun r => r.assigned_stop_id)).filter (fun i => i ≠ p)) := by
        simp [List.filter_cons, h]
      cases ls with
      | nil =>
        rw [relabel, hfil]
        simp only [List.map_cons, List.cons_append]
        exact (ih [] hlen).cons r.assigned_stop_id
      | cons l ls2 =>
        rw [relabel, if_neg h, hfil]
        simp only [List.map_cons, List.cons_append]
        exact (ih (l :: ls2) hlen).cons r.assigned_stop_id

theorem relabel_groupOf_eq (p base q : ℕ) (rows : List StudentRow) (ls : List ℕ)
    (hqp : q ≠ p) (hqb : q < base) :
    groupOf (relabel p base rows ls) q = groupOf rows q := by
  induction rows generalizing ls with
  | nil => rfl
  | cons r rs ih =>
    cases ls with
    | nil =>
      rw [relabel]
      by_cases h3 : r.assigned_stop_id = q
      · rw [groupOf_cons_pos h3, groupOf_cons_pos h3]
        exact congrArg (r :: ·) (ih [])
      · rw [groupOf_cons_neg h3, groupOf_cons_neg h3]
        exact ih []
    | cons l ls2 =>
      by_cases h : r.assigned_stop_id = p
      · have hrq : ¬ r.assigned_stop_id = q := by
          rw [h]
          exact fun hh => hqp hh.symm
        rw [relabel, if_pos h]
        have hnew : ¬ ({ r with assigned_stop_id := base + l } : StudentRow).assigned_stop_id
            = q := by
          show ¬ base + l = q
          omega
        rw [groupOf_cons_neg hnew, groupOf_cons_neg hrq]
        exact ih ls2
      · rw [relabel, if_neg h]
        by_cases h3 : r.assigned_stop_id = q
        · rw [groupOf_cons_pos h3, groupOf_cons_pos h3]
          exact congrArg (r :: ·) (ih (l :: ls2))
        · rw [groupOf_cons_neg h3, groupOf_cons_neg h3]
          exact ih (l :: ls2)

theorem relabel_id_lt (p base k : ℕ) (rows : List StudentRow) (ls : List ℕ)
    (hb : ∀ r ∈ rows, r.assigned_stop_id < base) (hl : ∀ l ∈ ls, l < k) :
    ∀ r ∈ relabel p base rows ls, r.assigned_stop_id < base + k := by
  induction rows generalizing ls with
  | nil =>
    intro r hr
    cases hr
  | cons r rs ih =>
    intro r2 hr2
    have hbtail : ∀ r ∈ rs, r.assigned_stop_id < base :=
      fun r3 hr3 => hb r3 (List.mem_cons_of_mem _ hr3)
    cases ls with
    | nil =>
      rw [relabel] at hr2
      rcases List.mem_cons.1 hr2 with rfl | hmem
      · have := hb r2 (List.mem_cons_self _ _)
        omega
      · exact ih [] hbtail (by simp) r2 hmem
    | cons l ls2 =>
      rw [relabel] at hr2
      by_cases h : r.assigned_stop_id = p
      · rw [if_pos h] at hr2
        rcases List.mem_cons.1 hr2 with rfl | hmem
        · have hlk := hl l (List.mem_cons_self l ls2)
          exact (by omega : base + l < base + k)
        · exact ih ls2 hbtail (fun l2 h2 => hl l2 (List.mem_cons_of_mem _ h2)) r2 hmem
      · rw [if_neg h] at hr2
        rcases List.mem_cons.1 hr2 with rfl | hmem
        · have := hb r2 (List.mem_cons_self _ _)
          omega
        · exact ih (l :: ls2) hbtail hl r2 hmem

theorem toFinset_map_add (base : ℕ) (ls : List ℕ) :
    (ls.map (fun l => base + l)).toFinset = ls.toFinset.image (fun l => base + l) := by
  apply Finset.ext
  intro x
  simp

theorem relabel_stopIdCard (p base : ℕ) (rows : List StudentRow) (ls : List ℕ)
    (hlen : ls.length = (groupOf rows p).length)
    (hp : p ∈ rows.map (fun r => r.assigned_stop_id))
    (hb : ∀ r ∈ rows, r.assigned_stop_id < base)
    (hc2 : 2 ≤ ls.toFinset.card) :
    stopIdCard rows + 1 ≤ stopIdCard (relabel p base rows ls) := by
  have hperm := relabel_ids_perm p base rows ls hlen
  rw [stopIdCard, stopIdCard, List.toFinset_eq_of_perm _ _ hperm, List.toFinset_append]
  have hfil : ((rows.map (fun r => r.assigned_stop_id)).filter (fun i => i ≠ p)).toFinset
      = (rows.map (fun r => r.assigned_stop_id)).toFinset.erase p := by
    apply Finset.ext
    intro x
    simp only [List.mem_toFinset, List.mem_filter, Finset.mem_erase, decide_eq_true_eq]
    exact and_comm
  rw [hfil, toFinset_map_add]
  have hdisj : Disjoint ((rows.map (fun r => r.assigned_stop_id)).toFinset.erase p)
      (ls.toFinset.image (fun l => base + l)) := by
    rw [Finset.disjoint_left]
    intro a ha hb2
    have h1 : a ∈ (rows.map (fun r => r.assigned_stop_id)).toFinset :=
      Finset.mem_of_mem_erase ha
    rw [List.mem_toFinset] at h1
    obtain ⟨r, hr, rfl⟩ := List.mem_map.1 h1
    have hlt := hb r hr
    rw [Finset.mem_image] at hb2
    obtain ⟨l, _, hl⟩ := hb2
    omega
  rw [Finset.card_union_of_disjoint hdisj]
  have hpe : p ∈ (rows.map (fun r => r.assigned_stop_id)).toFinset := List.mem_toFinset.2 hp
  rw [Finset.card_erase_of_mem hpe]
  have himg : (ls.toFinset.image (fun l => base + l)).card = ls.toFinset.card :=
    Finset.card_image_of_injective _ (fun a b h => by omega)
  have hpos : 1 ≤ (rows.map (fun r => r.assigned_stop_id)).toFinset.card :=
    Finset.card_pos.2 ⟨p, hpe⟩
  omega

theorem problematic_group_two {rows : List StudentRow} {maxD : ℝ} (hD : 0 < maxD) {p : ℕ}
    (hp : p ∈ problematicOf rows maxD) : 2 ≤ (groupOf rows p).length := by
  obtain ⟨hk, hlt⟩ := mem_problematicOf.1 hp
  have hne := groupOf_ne_nil hk
  by_contra hcon
  push_neg at hcon
  have hlen1 : (groupOf rows p).length = 1 := by
    have hpos := List.length_pos.2 hne
    omega
  obtain ⟨r, hr⟩ := List.length_eq_one.1 hlen1
  have hcent : centroidOf [r] = (r.latitude, r.longitude) := by
    rw [centroidOf]
    simp
  have hzero : rowDist [r] r = 0 := by
    rw [rowDist, hcent, haversineKm_self]
  have hdl : distsOf rows p = [0] := by
    rw [distsOf, hr]
    simp [hzero]
  rw [hdl] at hlt
  have hmz : maxOf [(0 : ℝ)] = 0 := rfl
  rw [hmz] at hlt
  linarith

theorem le_foldr_max {l : List ℕ} {id : ℕ} (h : id ∈ l) : id ≤ l.foldr max 0 := by
  induction l with
  | nil => cases h
  | cons x xs ih =>
    rw [List.foldr_cons]
    rcases List.mem_cons.1 h with rfl | hx
    · exact le_max_left _ _
    · exact le_trans (ih hx) (le_max_right _ _)

theorem stopIdCard_le_length (rows : List StudentRow) : stopIdCard rows ≤ rows.length := by
  rw [stopIdCard]
  exact le_trans (List.toFinset_card_le _) (by rw [List.length_map])

theorem splitAll_spec (o : KMOracle) (hO : OracleSplits o) (maxD : ℝ) :
    ∀ (ps : List ℕ) (rows : List StudentRow) (base : ℕ),
      (∀ p ∈ ps, p ∈ rows.map (fun r => r.assigned_stop_id) ∧ 2 ≤ (groupOf rows p).length) →
      ps.Nodup →
      (∀ p ∈ ps, p < base) →
      (∀ r ∈ rows, r.assigned_stop_id < base) →
      ∃ rows2, splitAll o maxD ps rows base = some rows2 ∧
        rows2.length = rows.length ∧
        stopIdCard rows + ps.length ≤ stopIdCard rows2 := by
  intro ps
  induction ps with
  | nil =>
    intro rows base _ _ _ _
    exact ⟨rows, rfl, rfl, by simp⟩
  | cons p ps ih =>
    intro rows base hps hnd hlt hb
    obtain ⟨hpmem, hglen⟩ := hps p (List.mem_cons_self _ _)
    have hk2 : 2 ≤ subCount maxD (groupOf rows p) := le_max_left _ _
    have hcs : 2 ≤ ((groupOf rows p).map (fun r => (r.latitude, r.longitude))).length := by
      rw [List.length_map]
      exact hglen
    obtain ⟨ls, ho, hlslen, hlab, hc2⟩ :=
      hO (subCount maxD (groupOf rows p))
        ((groupOf rows p).map fun r => (r.latitude, r.longitude)) hk2 hcs
    rw [List.length_map] at hlslen
    have hg_eq : ∀ q ∈ ps, groupOf (relabel p base rows ls) q = groupOf rows q := by
      intro q hq
      have hqp : q ≠ p := by
        intro hh
        subst hh
        exact (List.nodup_cons.1 hnd).1 hq
      exact relabel_groupOf_eq p base q rows ls hqp (hlt q (List.mem_cons_of_mem _ hq))
    have hps1 : ∀ q ∈ ps, q ∈ (relabel p base rows ls).map (fun r => r.assigned_stop_id) ∧
        2 ≤ (groupOf (relabel p base rows ls) q).length := by
      intro q hq
      have hgq := hg_eq q hq
      have h2 := (hps q (List.mem_cons_of_mem _ hq)).2
      constructor
      · have hpos : 0 < (groupOf (relabel p base rows ls) q).length := by
          rw [hgq]
          omega
        obtain ⟨r, hrm⟩ := List.exists_mem_of_length_pos hpos
        have hmr := mem_groupOf.1 hrm
        exact List.mem_map.2 ⟨r, hmr.1, hmr.2⟩
      · rw [hgq]
        exact h2
    have hnd1 := (List.nodup_cons.1 hnd).2
    have hlt1 : ∀ q ∈ ps, q < base + subCount maxD (groupOf rows p) := by
      intro q hq
      have := hlt q (List.mem_cons_of_mem _ hq)
      omega
    have hb1 : ∀ r ∈ relabel p base rows ls,
        r.assigned_stop_id < base + subCount maxD (groupOf rows p) :=
      relabel_id_lt p base (subCount maxD (groupOf rows p)) rows ls hb hlab
    obtain ⟨rows2, hsp, hlen2, hcard2⟩ :=
      ih (relabel p base rows ls) (base + subCount maxD (groupOf rows p)) hps1 hnd1 hlt1 hb1
    refine ⟨rows2, ?_, ?_, ?_⟩
    · rw [splitAll, ho]
      exact hsp
    · rw [hlen2, relabel_length]
    · have hstep := relabel_stopIdCard p base rows ls hlslen hpmem hb hc2
      simp only [List.length_cons]
      omega

/-- C7 amended: the repair loop of `enforce_max_distance` terminates for
every finite input and positive bound provided every subclustering call
succeeds and splits its (at least two-member) group into at least two
non-empty subclusters — which sklearn KMeans guarantees exactly when the
requested `n_clusters` does not exceed the member count. (When a problematic
cluster has fewer members than `max(2, ceil(max_dist / bound))`, the KMeans
call raises and the loop errors instead: see the counterexample.) -/
theorem enforce_terminates_of_splitting_oracle (o : KMOracle) (hO : OracleSplits o)
    (maxD : ℝ) (hD : 0 < maxD) (rows : List StudentRow) :
    ∃ fuel rows2, enforceLoopO o maxD fuel rows = .ok rows2 := by
  suffices H : ∀ n (rows : List StudentRow), rows.length - stopIdCard rows < n →
      ∃ fuel rows2, enforceLoopO o maxD fuel rows = .ok rows2 by
    exact H (rows.length - stopIdCard rows + 1) rows (by omega)
  intro n
  induction n with
  | zero =>
    intro rows h
    exact absurd h (by omega)
  | succ n ih =>
    intro rows hm
    by_cases hp : problematicOf rows maxD = []
    · exact ⟨1, rows, by rw [enforceLoopO, if_pos hp]⟩
    · have hprops : ∀ p ∈ problematicOf rows maxD,
          p ∈ rows.map (fun r => r.assigned_stop_id) ∧ 2 ≤ (groupOf rows p).length := by
        intro p hpp
        exact ⟨mem_keysOf.1 (mem_problematicOf.1 hpp).1, problematic_group_two hD hpp⟩
      have hnd : (problematicOf rows maxD).Nodup := (keysOf_nodup rows).filter _
      have hlt : ∀ p ∈ problematicOf rows maxD, p < maxIdOf rows + 1 := by
        intro p hpp
        have h1 : p ≤ maxIdOf rows :=
          le_foldr_max (mem_keysOf.1 (mem_problematicOf.1 hpp).1)
        omega
      have hb : ∀ r ∈ rows, r.assigned_stop_id < maxIdOf rows + 1 := by
        intro r hr
        have h1 : r.assigned_stop_id ≤ maxIdOf rows :=
          le_foldr_max (List.mem_map.2 ⟨r, hr, rfl⟩)
        omega
      obtain ⟨rows2, hsp, hlen, hcard⟩ :=
        splitAll_spec o hO maxD (problematicOf rows maxD) rows (maxIdOf rows + 1)
          hprops hnd hlt hb
      have hplen : 1 ≤ (problematicOf rows maxD).length := by
        rcases hcase : problematicOf rows maxD with _ | ⟨q, qs⟩
        · exact absurd hcase hp
        · simp
      have hcle := stopIdCard_le_length rows2
      obtain ⟨fuel, rows3, hloop⟩ := ih rows2 (by omega)
      refine ⟨fuel + 1, rows3, ?_⟩
      rw [enforceLoopO, if_neg hp, hsp]
      exact hloop

/-- A total splitting oracle: when a genuine split of at least two samples
is requested it labels them `0, 1, 1, ...`. -/
def idealSplit : KMOracle := fun k cs =>
  if 2 ≤ k ∧ 2 ≤ cs.length then some ((List.range cs.length).map (fun i => min i 1))
  else some (List.replicate cs.length 0)

/-- Witness: with a splitting oracle the loop terminates even on the far
pair that crashes the real KMeans contract. -/
theorem enforce_terminates_of_splitting_oracle_witness :
    (0 : ℝ) < 1 ∧ ∃ fuel rows2, enforceLoopO idealSplit 1 fuel rowsFar = .ok rows2 := by
  have hO : OracleSplits idealSplit := by
    intro k cs hk hcs
    refine ⟨(List.range cs.length).map (fun i => min i 1), ?_, by simp, ?_, ?_⟩
    · unfold idealSplit
      rw [if_pos ⟨hk, hcs⟩]
    · intro l hl
      obtain ⟨i, hi, rfl⟩ := List.mem_map.1 hl
      have hm : min i 1 ≤ 1 := min_le_right _ _
      omega
    · have h0 : (0 : ℕ) ∈ (List.range cs.length).map (fun i => min i 1) :=
        List.mem_map.2 ⟨0, List.mem_range.2 (by omega), rfl⟩
      have h1 : (1 : ℕ) ∈ (List.range cs.length).map (fun i => min i 1) :=
        List.mem_map.2 ⟨1, List.mem_range.2 (by omega), rfl⟩
      have hsub : ({0, 1} : Finset ℕ) ⊆
          ((List.range cs.length).map (fun i => min i 1)).toFinset := by
        intro x hx
        rcases Finset.mem_insert.1 hx with rfl | hx1
        · exact List.mem_toFinset.2 h0
        · rw [Finset.mem_singleton] at hx1
          subst hx1
          exact List.mem_toFinset.2 h1
      calc 2 = ({0, 1} : Finset ℕ).card := by decide
        _ ≤ _ := Finset.card_le_card hsub
  exact ⟨by norm_num,
    enforce_terminates_of_splitting_oracle idealSplit hO 1 (by norm_num) rowsFar⟩

/-- C7 counterexample: on `rowsFar` with bound 1 km the single cluster is
problematic (its members sit about 11.1 km from the centroid), the code asks
KMeans for `max(2, ceil(11.1/1)) = 12` subclusters of a 2-member group, the
call is rejected (`n_clusters > n_samples`), and `enforce_max_distance`
raises instead of terminating — for any iteration budget. -/
theorem enforce_crashes_on_far_pair : ¬ enforceTerminates rowsFar 1 := by
  rintro ⟨fuel, rows2, hok⟩
  cases fuel with
  | zero => simp [enforce_max_distance, enforceLoopO] at hok
  | succ n =>
    rw [enforce_max_distance, enforceLoopO, rowsFar_problematic] at hok
    rw [if_neg (by simp : ¬([0] : List ℕ) = [])] at hok
    rw [rowsFar_split_crashes] at hok
    simp at hok

end SafeMiles
